import Mathlib

/-
Verification of the evolutionary-algorithm optimizer in eggholderEA_div.py.

The embedding is a shallow translation of the class eggholderEA and the
module-level objective myfun.  Points are pairs of reals, numpy arrays of
shape (n, 2) are lists of points, and every random draw made by the source
(random.choices, np.random.rand, np.random.randn) is threaded through as an
explicit input; a claim quantified over the random stream becomes a theorem
quantified over those inputs, constrained to the support of the sampling
primitive the source calls.
-/

set_option maxHeartbeats 1000000

open scoped Classical

namespace EggholderEA

/-- A candidate solution: a point of the 2-D search domain (one row of a
numpy (n, 2) array). -/
abbrev Point : Type := ℝ × ℝ

/-- The run parameters fixed in eggholderEA.__init__ (only the objective
function is a constructor argument). -/
structure Config where
  alpha : ℝ
  lambdaa : ℕ
  mu : ℕ
  k : ℕ
  fitness_alpha : ℝ
  intMax : ℝ
  sigma : ℝ
  numIters : ℕ

/-- The concrete values assigned in eggholderEA.__init__:
alpha = 0.05, lambdaa = 100, mu = 2 * lambdaa, k = 3, fitness_alpha = 0.5,
intMax = 500, sigma = intMax * 0.3, numIters = 20. -/
noncomputable def defaultCfg : Config where
  alpha := 0.05
  lambdaa := 100
  mu := 2 * 100
  k := 3
  fitness_alpha := 0.5
  intMax := 500
  sigma := 500 * 0.3
  numIters := 20

/-- A small configuration used to instantiate the general theorems on
concrete inputs (the theorems hold for every configuration). -/
noncomputable def testCfg : Config where
  alpha := 0
  lambdaa := 1
  mu := 1
  k := 1
  fitness_alpha := 0.5
  intMax := 500
  sigma := 150
  numIters := 0

/-- The default configuration with the niche radius raised to 1000, which
exceeds the diagonal of the domain [0, 500] x [0, 500]; used for the
large-sigma scenario of claim C7. -/
noncomputable def bigSigmaCfg : Config where
  alpha := 0.05
  lambdaa := 100
  mu := 2 * 100
  k := 3
  fitness_alpha := 0.5
  intMax := 500
  sigma := 1000
  numIters := 20

/-- A numpy array as passed to the objective function: either a flat
1-D array holding a single (x, y) point, or a 2-D batch of rows. -/
inductive NpArr where
  | flat (p : Point)
  | batch (ps : List Point)

/-- The support of random.choices(range(n), k = k) as called in
eggholderEA.selection: any length-k list of indices below n.  Sampling is
with replacement, so repeated indices are possible outcomes. -/
def choices_support (n k : ℕ) (ri : List ℕ) : Prop :=
  ri.length = k ∧ ∀ j ∈ ri, j < n

/-- Index of the first occurrence of the minimum of a list of reals,
modelling np.argmin (which documents ties broken by first occurrence);
also used for the leading index of np.argsort on the keys the source
sorts.  Returns 0 on the empty list (numpy raises there). -/
noncomputable def np_argmin : List ℝ → ℕ
  | [] => 0
  | [_] => 0
  | a :: b :: rest =>
    if a ≤ (b :: rest).getD (np_argmin (b :: rest)) 0 then 0
    else np_argmin (b :: rest) + 1

/-- Euclidean distance between two points, eggholderEA.calc_distance
specialised to one row of the vectorised np.linalg.norm call. -/
noncomputable def calc_distance (p q : Point) : ℝ :=
  Real.sqrt ((p.1 - q.1) ^ 2 + (p.2 - q.2) ^ 2)

/-- eggholderEA.calc_beta: the niche count of population[x], summing
(1 - d / sigma) ** fitness_alpha over the members at distance d < sigma.
The source builds the sum with the boolean mask distances < sigma; here a
member at or beyond sigma contributes the term 0 instead of being dropped,
which yields the same sum.  The exponent is the real power (numpy **). -/
noncomputable def calc_beta (cfg : Config) (x : ℕ) (population : List Point) : ℝ :=
  (population.map (fun q =>
    if calc_distance (population.getD x (0, 0)) q < cfg.sigma then
      (1 - calc_distance (population.getD x (0, 0)) q / cfg.sigma) ^ cfg.fitness_alpha
    else 0)).sum

/-- eggholderEA.wrap_fitness: the shared fitness of population[x].  The
objective is called on the single flat point population[x]; the returned
array is multiplied elementwise by beta ** sign(f) and element 0 of the
product is returned (g[0] in the source). -/
noncomputable def wrap_fitness (cfg : Config) (objf : NpArr → List ℝ)
    (x : ℕ) (population : List Point) : ℝ :=
  let beta := calc_beta cfg x population
  let f := objf (NpArr.flat (population.getD x (0, 0)))
  let g := f.map (fun fv => fv * beta ^ Real.sign fv)
  g.headD 0

/-- The objective interface assumed by the optimizer: on a batch it returns
one scalar per row, and on a flat point the singleton batch of that point
(section 6 of the spec: same length as input, defined on the whole domain). -/
structure ObjfModels (objf : NpArr → List ℝ) (fp : Point → ℝ) : Prop where
  flat_eq : ∀ p : Point, objf (NpArr.flat p) = [fp p]
  batch_eq : ∀ l : List Point, objf (NpArr.batch l) = l.map fp

/-- The per-row eggholder-style formula of myfun:
f(x, y) = -y * sin(sqrt(abs(x + y))) - x * sin(sqrt(abs(x - y))). -/
noncomputable def eggf (p : Point) : ℝ :=
  -p.2 * Real.sin (Real.sqrt |p.1 + p.2|) - p.1 * Real.sin (Real.sqrt |p.1 - p.2|)

/-- The module-level objective myfun: a flat input of size 2 is reshaped to
a 1-by-2 batch, then the formula is applied row by row. -/
noncomputable def myfun : NpArr → List ℝ
  | NpArr.flat p => [p].map eggf
  | NpArr.batch ps => ps.map eggf

/-- A constant objective returning 1 on every row; an admissible objective
under the interface of section 6 of the spec (any sign, no preconditions),
used to witness the large-sigma scenario of claim C7. -/
noncomputable def constOne : NpArr → List ℝ
  | NpArr.flat _ => [1]
  | NpArr.batch ps => ps.map (fun _ => 1)

/-- np.clip on a scalar: clamp v into the interval from lo to hi. -/
noncomputable def np_clip (v lo hi : ℝ) : ℝ := min (max v lo) hi

/-- eggholderEA.selection: mu tournament draws; draw ii uses the index list
draws[ii] produced by random.choices(range(len(population)), k = k), scores
each sampled index by wrap_fitness against the whole population, and copies
the row of the np.argmin winner. -/
noncomputable def selection (cfg : Config) (objf : NpArr → List ℝ)
    (population : List Point) (draws : List (List ℕ)) : List Point :=
  (List.range cfg.mu).map (fun ii =>
    let ri := draws.getD ii []
    let g := ri.map (fun x => wrap_fitness cfg objf x population)
    population.getD (ri.getD (np_argmin g) 0) (0, 0))

/-- The blend lambda lc of eggholderEA.crossover on one pair of parents:
clip(x + w * (y - x), 0, intMax), componentwise. -/
noncomputable def lc (x y w : Point) (bound : ℝ) : Point :=
  (np_clip (x.1 + w.1 * (y.1 - x.1)) 0 bound,
   np_clip (x.2 + w.2 * (y.2 - x.2)) 0 bound)

/-- eggholderEA.crossover: offspring ii blends the consecutive parents
selected[2 ii] and selected[2 ii + 1] with the weight row weights[ii]
(drawn in the source as 3 * np.random.rand(lambdaa, 2) - 1). -/
noncomputable def crossover (cfg : Config) (selected : List Point)
    (weights : List Point) : List Point :=
  (List.range cfg.lambdaa).map (fun ii =>
    lc (selected.getD (2 * ii) (0, 0)) (selected.getD (2 * ii + 1) (0, 0))
      (weights.getD ii (0, 0)) cfg.intMax)

/-- eggholderEA.mutation: row i mutates exactly when its uniform draw u[i]
(np.random.rand) satisfies u[i] <= alpha; a mutating row gets 10 times its
Gaussian draw noise[i] (np.random.randn) added to each coordinate and is
clipped to the domain, a non-mutating row passes through unchanged. -/
noncomputable def mutation (cfg : Config) (offspring : List Point)
    (u : List ℝ) (noise : List Point) (alpha : ℝ) : List Point :=
  (List.range offspring.length).map (fun i =>
    if u.getD i 1 ≤ alpha then
      (np_clip ((offspring.getD i (0, 0)).1 + 10 * (noise.getD i (0, 0)).1) 0 cfg.intMax,
       np_clip ((offspring.getD i (0, 0)).2 + 10 * (noise.getD i (0, 0)).2) 0 cfg.intMax)
    else offspring.getD i (0, 0))

/-- The list comprehension of eggholderEA.elimination: each remaining pool
member, stacked in front of the survivors chosen so far, is scored by
wrap_fitness at index 0 (the candidate itself). -/
noncomputable def elim_g (cfg : Config) (objf : NpArr → List ℝ)
    (pool : List Point) (survivors : List Point) : List ℝ :=
  (List.range pool.length).map (fun x =>
    wrap_fitness cfg objf 0 (pool.getD x (0, 0) :: survivors))

/-- The loop body of eggholderEA.elimination: fuel iterations remain, j is
the leading index of the previous np.argsort (the index of the current
best), survivors accumulates the rows already moved out of the pool.  Each
step copies pool[j] into the next survivor slot, deletes it from the pool,
rescores the remaining pool with elim_g and sorts again. -/
noncomputable def elim_go (cfg : Config) (objf : NpArr → List ℝ) :
    ℕ → List Point → ℕ → List Point → List Point
  | 0, _, _, survivors => survivors
  | fuel + 1, pool, j, survivors =>
    elim_go cfg objf fuel (pool.eraseIdx j)
      (np_argmin (elim_g cfg objf (pool.eraseIdx j)
        (survivors ++ [pool.getD j (0, 0)])))
      (survivors ++ [pool.getD j (0, 0)])

/-- eggholderEA.elimination: rank the joined pool by raw objective values
(np.argsort of objf on the batch), then run the greedy survivor loop keep
times starting from the best raw individual. -/
noncomputable def elimination (cfg : Config) (objf : NpArr → List ℝ)
    (joinedPopulation : List Point) (keep : ℕ) : List Point :=
  elim_go cfg objf keep joinedPopulation
    (np_argmin (objf (NpArr.batch joinedPopulation))) []

/-- The initial population of eggholderEA.optimize:
intMax * np.random.rand(lambdaa, 2), with the uniform [0, 1) draws u given
as input. -/
noncomputable def init_population (cfg : Config) (u : List Point) : List Point :=
  u.map (fun p => (cfg.intMax * p.1, cfg.intMax * p.2))

/-- The random draws consumed by one generation of the loop. -/
structure GenRand where
  draws : List (List ℕ)
  weights : List Point
  mutU : List ℝ
  mutNoise : List Point

/-- One generation of eggholderEA.optimize: selection, crossover, mutation,
np.vstack of mutated offspring on top of the current population, then
elimination back down to lambdaa survivors. -/
noncomputable def step (cfg : Config) (objf : NpArr → List ℝ)
    (population : List Point) (r : GenRand) : List Point :=
  let selected := selection cfg objf population r.draws
  let offspring := crossover cfg selected r.weights
  let joinedPopulation := mutation cfg offspring r.mutU r.mutNoise cfg.alpha ++ population
  elimination cfg objf joinedPopulation cfg.lambdaa

/-- The populations reported by eggholderEA.optimize via plotFun: the
initial population followed by the population after each generation. -/
noncomputable def optimize_reported (cfg : Config) (objf : NpArr → List ℝ)
    (u : List Point) (rs : List GenRand) : List (List Point) :=
  List.scanl (step cfg objf) (init_population cfg u) rs

/-- One point inside the box [0, bound] in both coordinates. -/
def inBoundsPt (bound : ℝ) (p : Point) : Prop :=
  0 ≤ p.1 ∧ p.1 ≤ bound ∧ 0 ≤ p.2 ∧ p.2 ≤ bound

/-- Every member of the population lies inside the box [0, bound]. -/
def inBounds (bound : ℝ) (l : List Point) : Prop :=
  ∀ p ∈ l, inBoundsPt bound p

/-- Modelled from the spec (claim C1, refinement target): the elimination
contract.  S holds exactly keep survivors, drawn from pairwise distinct
slots of the pool (a subpermutation); survivors[0] is a pool member of
minimum raw objective value; and every later survivor S[i] is the member
of the then-remaining pool P (the pool minus the survivors already taken,
witnessed by the permutation) minimizing shared fitness with reference
population consisting of the candidate itself followed by the survivors
already chosen, ties broken by first occurrence in the pool. -/
def EliminationClaim (cfg : Config) (objf : NpArr → List ℝ) (fp : Point → ℝ)
    (joined : List Point) (keep : ℕ) (S : List Point) : Prop :=
  S.length = keep ∧
  List.Subperm S joined ∧
  (S.getD 0 (0, 0) ∈ joined ∧ ∀ q ∈ joined, fp (S.getD 0 (0, 0)) ≤ fp q) ∧
  (∀ i, i + 1 < keep → ∃ P : List Point,
    List.Perm (S.take (i + 1) ++ P) joined ∧
    ∃ jj, jj < P.length ∧
      S.getD (i + 1) (0, 0) = P.getD jj (0, 0) ∧
      (∀ m, m < P.length →
        wrap_fitness cfg objf 0 (P.getD jj (0, 0) :: S.take (i + 1)) ≤
        wrap_fitness cfg objf 0 (P.getD m (0, 0) :: S.take (i + 1))) ∧
      (∀ m, m < jj →
        wrap_fitness cfg objf 0 (P.getD jj (0, 0) :: S.take (i + 1)) <
        wrap_fitness cfg objf 0 (P.getD m (0, 0) :: S.take (i + 1))))

/-- Modelled from the spec (claim C2, refinement target, amended to the
with-replacement sampling the source performs): the selection contract.
S holds exactly mu parents; parent ii is the member of the population
sampled by draw ii whose shared fitness against the entire population is
minimal, ties broken by the first occurrence inside the draw. -/
def SelectionClaim (cfg : Config) (objf : NpArr → List ℝ)
    (population : List Point) (draws : List (List ℕ)) (S : List Point) : Prop :=
  S.length = cfg.mu ∧
  ∀ ii, ii < cfg.mu → ∃ m, m < (draws.getD ii []).length ∧
    S.getD ii (0, 0) = population.getD ((draws.getD ii []).getD m 0) (0, 0) ∧
    (∀ m', m' < (draws.getD ii []).length →
      wrap_fitness cfg objf ((draws.getD ii []).getD m 0) population ≤
      wrap_fitness cfg objf ((draws.getD ii []).getD m' 0) population) ∧
    (∀ m', m' < m →
      wrap_fitness cfg objf ((draws.getD ii []).getD m 0) population <
      wrap_fitness cfg objf ((draws.getD ii []).getD m' 0) population)

lemma myfun_models : ObjfModels myfun eggf :=
  ⟨fun _ => rfl, fun _ => rfl⟩

lemma np_argmin_nil : np_argmin [] = 0 := rfl

lemma np_argmin_singleton (a : ℝ) : np_argmin [a] = 0 := rfl

lemma np_argmin_cons_cons (a b : ℝ) (rest : List ℝ) :
    np_argmin (a :: b :: rest) =
      if a ≤ (b :: rest).getD (np_argmin (b :: rest)) 0 then 0
      else np_argmin (b :: rest) + 1 := by
  simp [np_argmin]

/-- np.argmin returns a valid index of any nonempty list. -/
lemma np_argmin_lt_length : ∀ (l : List ℝ), l ≠ [] → np_argmin l < l.length
  | [], h => absurd rfl h
  | [_], _ => by simp [np_argmin_singleton]
  | a :: b :: rest, _ => by
    rw [np_argmin_cons_cons]
    by_cases hab : a ≤ (b :: rest).getD (np_argmin (b :: rest)) 0
    · rw [if_pos hab]
      simp
    · rw [if_neg hab]
      have ih := np_argmin_lt_length (b :: rest) (by simp)
      simp only [List.length_cons] at ih ⊢
      omega

/-- The value at the np.argmin index is a minimum of the list. -/
lemma np_argmin_le : ∀ (l : List ℝ) (i : ℕ), i < l.length →
    l.getD (np_argmin l) 0 ≤ l.getD i 0
  | [], i, h => by simp at h
  | [a], i, h => by
    have hi : i = 0 := by simpa using Nat.lt_one_iff.mp (by simpa using h)
    subst hi
    simp [np_argmin_singleton]
  | a :: b :: rest, i, h => by
    rw [np_argmin_cons_cons]
    by_cases hab : a ≤ (b :: rest).getD (np_argmin (b :: rest)) 0
    · rw [if_pos hab]
      match i with
      | 0 => simp
      | i + 1 =>
        have ih := np_argmin_le (b :: rest) i (by simpa using h)
        simpa using le_trans hab ih
    · rw [if_neg hab]
      push_neg at hab
      match i with
      | 0 => simpa using le_of_lt hab
      | i + 1 =>
        have ih := np_argmin_le (b :: rest) i (by simpa using h)
        simpa using ih

/-- Entries strictly before the np.argmin index are strictly larger:
np.argmin is the first occurrence of the minimum. -/
lemma np_argmin_first : ∀ (l : List ℝ) (i : ℕ), i < np_argmin l →
    l.getD (np_argmin l) 0 < l.getD i 0
  | [], i, h => by simp [np_argmin_nil] at h
  | [a], i, h => by simp [np_argmin_singleton] at h
  | a :: b :: rest, i, h => by
    rw [np_argmin_cons_cons] at h ⊢
    by_cases hab : a ≤ (b :: rest).getD (np_argmin (b :: rest)) 0
    · rw [if_pos hab] at h
      simp at h
    · rw [if_neg hab] at h ⊢
      push_neg at hab
      match i with
      | 0 => simpa using hab
      | i + 1 =>
        have ih := np_argmin_first (b :: rest) i (by omega)
        simpa using ih

lemma getD_map_of_lt {α β : Type _} (l : List α) (f : α → β) (d : α) (d' : β)
    (i : ℕ) (h : i < l.length) : (l.map f).getD i d' = f (l.getD i d) := by
  rw [List.getD_eq_getElem _ _ (by simpa using h), List.getD_eq_getElem _ _ h]
  simp

lemma getD_range_map {β : Type _} (n : ℕ) (f : ℕ → β) (d' : β)
    (i : ℕ) (h : i < n) : ((List.range n).map f).getD i d' = f i := by
  rw [List.getD_eq_getElem _ _ (by simpa using h)]
  simp

lemma getD_mem_of_lt {α : Type _} (l : List α) (i : ℕ) (d : α)
    (h : i < l.length) : l.getD i d ∈ l := by
  rw [List.getD_eq_getElem _ _ h]
  exact List.getElem_mem h

/-- Deleting index j of a list and putting the element back in front is a
permutation of the original list. -/
lemma perm_getD_eraseIdx : ∀ (l : List Point) (j : ℕ), j < l.length →
    List.Perm l (l.getD j (0, 0) :: l.eraseIdx j)
  | [], j, h => by simp at h
  | a :: t, 0, _ => by simp
  | a :: t, j + 1, h => by
    have ih := perm_getD_eraseIdx t j (by simpa using h)
    simp only [List.eraseIdx_cons_succ, List.getD_cons_succ]
    have h1 : List.Perm (a :: t) (a :: (t.getD j (0, 0) :: t.eraseIdx j)) :=
      List.Perm.cons a ih
    have h2 : List.Perm (a :: (t.getD j (0, 0) :: t.eraseIdx j))
        (t.getD j (0, 0) :: a :: t.eraseIdx j) :=
      List.Perm.swap (t.getD j (0, 0)) a (t.eraseIdx j)
    exact h1.trans h2

lemma elim_g_length (cfg : Config) (objf : NpArr → List ℝ)
    (pool survivors : List Point) :
    (elim_g cfg objf pool survivors).length = pool.length := by
  simp [elim_g]

lemma elim_g_getD (cfg : Config) (objf : NpArr → List ℝ)
    (pool survivors : List Point) (m : ℕ) (h : m < pool.length) :
    (elim_g cfg objf pool survivors).getD m 0 =
      wrap_fitness cfg objf 0 (pool.getD m (0, 0) :: survivors) := by
  unfold elim_g
  rw [getD_range_map _ _ _ _ h]

lemma calc_distance_self (p : Point) : calc_distance p p = 0 := by
  simp [calc_distance]

lemma calc_distance_nonneg (p q : Point) : 0 ≤ calc_distance p q :=
  Real.sqrt_nonneg _

/-- Every term of the niche-count sum is nonnegative. -/
lemma beta_term_nonneg (σ alp : ℝ) (hσ : 0 < σ) (v q : Point) :
    0 ≤ if calc_distance v q < σ then (1 - calc_distance v q / σ) ^ alp else 0 := by
  by_cases hd : calc_distance v q < σ
  · rw [if_pos hd]
    have hlt : calc_distance v q / σ < 1 := (div_lt_one hσ).mpr hd
    exact Real.rpow_nonneg (by linarith) alp
  · rw [if_neg hd]

/-- The self term of the niche-count sum is exactly 1. -/
lemma beta_term_self (σ alp : ℝ) (hσ : 0 < σ) (v : Point) :
    (if calc_distance v v < σ then (1 - calc_distance v v / σ) ^ alp else 0) = 1 := by
  rw [calc_distance_self, if_pos hσ, zero_div, sub_zero, Real.one_rpow]

/-- wrap_fitness computes f * beta ** sign(f) on the raw objective value of
population[x], for any objective meeting the batch/flat interface. -/
lemma wrap_fitness_eq (cfg : Config) (objf : NpArr → List ℝ) (fp : Point → ℝ)
    (hobj : ObjfModels objf fp) (x : ℕ) (population : List Point) :
    wrap_fitness cfg objf x population =
      fp (population.getD x (0, 0)) *
        calc_beta cfg x population ^ Real.sign (fp (population.getD x (0, 0))) := by
  unfold wrap_fitness
  rw [hobj.flat_eq]
  simp

/-- When the individual is a member of its reference population the niche
count is at least 1. -/
lemma calc_beta_ge_one (cfg : Config) (x : ℕ) (population : List Point)
    (hσ : 0 < cfg.sigma) (hx : x < population.length) :
    1 ≤ calc_beta cfg x population := by
  unfold calc_beta
  have hmem : population.getD x (0, 0) ∈ population := getD_mem_of_lt _ _ _ hx
  have hmm :
      (if calc_distance (population.getD x (0, 0)) (population.getD x (0, 0)) < cfg.sigma
        then (1 - calc_distance (population.getD x (0, 0)) (population.getD x (0, 0)) /
          cfg.sigma) ^ cfg.fitness_alpha
        else 0) ∈ population.map (fun q =>
          if calc_distance (population.getD x (0, 0)) q < cfg.sigma then
            (1 - calc_distance (population.getD x (0, 0)) q / cfg.sigma) ^ cfg.fitness_alpha
          else 0) :=
    List.mem_map_of_mem _ hmem
  have hnn : ∀ y ∈ population.map (fun q =>
      if calc_distance (population.getD x (0, 0)) q < cfg.sigma then
        (1 - calc_distance (population.getD x (0, 0)) q / cfg.sigma) ^ cfg.fitness_alpha
      else 0), 0 ≤ y := by
    intro y hy
    obtain ⟨q, _, rfl⟩ := List.mem_map.mp hy
    exact beta_term_nonneg cfg.sigma cfg.fitness_alpha hσ _ q
  have h1 := List.single_le_sum hnn _ hmm
  rwa [beta_term_self cfg.sigma cfg.fitness_alpha hσ] at h1

/-- With a reference population of one member the niche count is exactly 1. -/
lemma calc_beta_singleton (cfg : Config) (hσ : 0 < cfg.sigma) (p : Point) :
    calc_beta cfg 0 [p] = 1 := by
  unfold calc_beta
  simp only [List.getD_cons_zero, List.map_cons, List.map_nil, List.sum_cons, List.sum_nil,
    add_zero]
  exact beta_term_self cfg.sigma cfg.fitness_alpha hσ p

/-- If v occurs exactly once in the reference list and every other member
is at distance at least sigma, the niche-count sum collapses to 1. -/
lemma beta_sum_separated (σ alp : ℝ) (hσ : 0 < σ) (v : Point) :
    ∀ l : List Point, v ∈ l → l.Nodup →
    (∀ q ∈ l, q ≠ v → σ ≤ calc_distance v q) →
    (l.map (fun q =>
      if calc_distance v q < σ then (1 - calc_distance v q / σ) ^ alp else 0)).sum = 1 := by
  intro l
  induction l with
  | nil => intro hv; simp at hv
  | cons a t ih =>
    intro hv hnd hfar
    rcases List.mem_cons.mp hv with hva | hvt
    · have hav : a = v := hva.symm
      subst hav
      have hrest : (t.map (fun q =>
          if calc_distance a q < σ then (1 - calc_distance a q / σ) ^ alp else 0)).sum = 0 := by
        apply List.sum_eq_zero
        intro y hy
        obtain ⟨q, hq, rfl⟩ := List.mem_map.mp hy
        have hqv : q ≠ a := by
          intro he
          subst he
          exact (List.nodup_cons.mp hnd).1 hq
        have hge := hfar q (List.mem_cons_of_mem a hq) hqv
        rw [if_neg (not_lt.mpr hge)]
      simp only [List.map_cons, List.sum_cons, hrest, add_zero]
      exact beta_term_self σ alp hσ a
    · have hav : a ≠ v := by
        intro he
        subst he
        exact (List.nodup_cons.mp hnd).1 hvt
      have hfirst : (if calc_distance v a < σ then (1 - calc_distance v a / σ) ^ alp else 0) = 0 := by
        rw [if_neg (not_lt.mpr (hfar a (List.mem_cons_self a t) hav))]
      have ihs := ih hvt (List.nodup_cons.mp hnd).2
        (fun q hq hqv => hfar q (List.mem_cons_of_mem a hq) hqv)
      simp only [List.map_cons, List.sum_cons, hfirst, zero_add]
      exact ihs

/-- C3: wrap_fitness returns g = f * beta ** sign(f) where f is the raw
objective value of population[x] and beta is the niche count of calc_beta
(members at or beyond sigma contribute 0, by definition of calc_beta);
whenever x is a valid index, so the individual belongs to its own reference
population, beta is at least 1; and on a reference population that is just
the individual itself the shared fitness equals the raw objective value. -/
theorem wrap_fitness_spec (cfg : Config) (objf : NpArr → List ℝ) (fp : Point → ℝ)
    (hobj : ObjfModels objf fp) (hσ : 0 < cfg.sigma) :
    (∀ (population : List Point) (x : ℕ),
      wrap_fitness cfg objf x population =
        fp (population.getD x (0, 0)) *
          calc_beta cfg x population ^ Real.sign (fp (population.getD x (0, 0)))) ∧
    (∀ (population : List Point) (x : ℕ), x < population.length →
      1 ≤ calc_beta cfg x population) ∧
    (∀ p : Point, wrap_fitness cfg objf 0 [p] = fp p) := by
  refine ⟨fun population x => wrap_fitness_eq cfg objf fp hobj x population,
    fun population x hx => calc_beta_ge_one cfg x population hσ hx, fun p => ?_⟩
  rw [wrap_fitness_eq cfg objf fp hobj 0 [p]]
  simp only [List.getD_cons_zero]
  rw [calc_beta_singleton cfg hσ p, Real.one_rpow, mul_one]

/-- Witness for C3 at the configuration of the source and the objective
myfun. -/
theorem wrap_fitness_spec_witness :
    (∀ (population : List Point) (x : ℕ),
      wrap_fitness defaultCfg myfun x population =
        eggf (population.getD x (0, 0)) *
          calc_beta defaultCfg x population ^ Real.sign (eggf (population.getD x (0, 0)))) ∧
    (∀ (population : List Point) (x : ℕ), x < population.length →
      1 ≤ calc_beta defaultCfg x population) ∧
    (∀ p : Point, wrap_fitness defaultCfg myfun 0 [p] = eggf p) :=
  wrap_fitness_spec defaultCfg myfun eggf myfun_models (by norm_num [defaultCfg])

/-- C7 (amended): in the small-sigma regime — sigma positive, the reference
population free of duplicates and its distinct members pairwise at distance
at least sigma — the shared fitness of every member equals its raw
objective value.  The large-sigma regime claimed alongside fails; see the
counterexample. -/
theorem shared_eq_raw_of_separated (cfg : Config) (objf : NpArr → List ℝ)
    (fp : Point → ℝ) (hobj : ObjfModels objf fp) (population : List Point) (x : ℕ)
    (hσ : 0 < cfg.sigma) (hx : x < population.length) (hnd : population.Nodup)
    (hsep : ∀ p ∈ population, ∀ q ∈ population, p ≠ q → cfg.sigma ≤ calc_distance p q) :
    wrap_fitness cfg objf x population = fp (population.getD x (0, 0)) := by
  have hv : population.getD x (0, 0) ∈ population := getD_mem_of_lt _ _ _ hx
  have hβ : calc_beta cfg x population = 1 := by
    unfold calc_beta
    exact beta_sum_separated cfg.sigma cfg.fitness_alpha hσ _ population hv hnd
      (fun q hq hqv => hsep _ hv q hq (Ne.symm hqv))
  rw [wrap_fitness_eq cfg objf fp hobj x population, hβ, Real.one_rpow, mul_one]

/-- Witness for C7 (amended): a two-point population separated by more than
the niche radius of the source configuration keeps raw fitness. -/
theorem shared_eq_raw_of_separated_witness :
    wrap_fitness defaultCfg myfun 0 [((0 : ℝ), (0 : ℝ)), ((400 : ℝ), (0 : ℝ))] =
      eggf ([((0 : ℝ), (0 : ℝ)), ((400 : ℝ), (0 : ℝ))].getD 0 (0, 0)) := by
  have h1 : calc_distance ((0 : ℝ), (0 : ℝ)) ((400 : ℝ), (0 : ℝ)) = 400 := by
    unfold calc_distance
    rw [show ((0 : ℝ) - 400) ^ 2 + ((0 : ℝ) - 0) ^ 2 = 400 ^ 2 by norm_num]
    rw [Real.sqrt_sq (by norm_num)]
  have h2 : calc_distance ((400 : ℝ), (0 : ℝ)) ((0 : ℝ), (0 : ℝ)) = 400 := by
    unfold calc_distance
    rw [show ((400 : ℝ) - 0) ^ 2 + ((0 : ℝ) - 0) ^ 2 = 400 ^ 2 by norm_num]
    rw [Real.sqrt_sq (by norm_num)]
  exact shared_eq_raw_of_separated defaultCfg myfun eggf myfun_models _ 0
    (by norm_num [defaultCfg]) (by norm_num) (by norm_num [Prod.ext_iff])
    (by
      intro p hp q hq hpq
      simp only [List.mem_cons, List.mem_singleton, List.not_mem_nil, or_false] at hp hq
      rcases hp with rfl | rfl <;> rcases hq with rfl | rfl <;>
        first
          | exact absurd rfl hpq
          | (rw [h1]; norm_num [defaultCfg])
          | (rw [h2]; norm_num [defaultCfg]))

/-- Counterexample to the large-sigma half of C7: with the niche radius
1000, which exceeds the domain diagonal sqrt(2) * 500 so that every pair of
the population is closer than sigma, the shared fitness of the first
individual of the population [(0,0), (3,4)] under the constant objective 1
differs from its raw objective value: beta = 1 + (1 - 5/1000) ** 0.5 > 1
multiplies the positive raw value upward. -/
theorem shared_eq_raw_large_sigma_cex :
    (∀ p ∈ [((0 : ℝ), (0 : ℝ)), ((3 : ℝ), (4 : ℝ))],
      ∀ q ∈ [((0 : ℝ), (0 : ℝ)), ((3 : ℝ), (4 : ℝ))],
        calc_distance p q < bigSigmaCfg.sigma) ∧
    Real.sqrt 2 * bigSigmaCfg.intMax < bigSigmaCfg.sigma ∧
    wrap_fitness bigSigmaCfg constOne 0 [((0 : ℝ), (0 : ℝ)), ((3 : ℝ), (4 : ℝ))] ≠
      (constOne (NpArr.flat ((0 : ℝ), (0 : ℝ)))).headD 0 := by
  have h34 : calc_distance ((0 : ℝ), (0 : ℝ)) ((3 : ℝ), (4 : ℝ)) = 5 := by
    unfold calc_distance
    rw [show ((0 : ℝ) - 3) ^ 2 + ((0 : ℝ) - 4) ^ 2 = 5 ^ 2 by norm_num]
    rw [Real.sqrt_sq (by norm_num)]
  have h43 : calc_distance ((3 : ℝ), (4 : ℝ)) ((0 : ℝ), (0 : ℝ)) = 5 := by
    unfold calc_distance
    rw [show ((3 : ℝ) - 0) ^ 2 + ((4 : ℝ) - 0) ^ 2 = 5 ^ 2 by norm_num]
    rw [Real.sqrt_sq (by norm_num)]
  refine ⟨?_, ?_, ?_⟩
  · intro p hp q hq
    simp only [List.mem_cons, List.mem_singleton, List.not_mem_nil, or_false] at hp hq
    rcases hp with rfl | rfl <;> rcases hq with rfl | rfl <;>
      first
        | (rw [calc_distance_self]; norm_num [bigSigmaCfg])
        | (rw [h34]; norm_num [bigSigmaCfg])
        | (rw [h43]; norm_num [bigSigmaCfg])
  · have h4lt : Real.sqrt 2 < Real.sqrt 4 := Real.sqrt_lt_sqrt (by norm_num) (by norm_num)
    have h4e : Real.sqrt 4 = 2 := by
      rw [show (4 : ℝ) = 2 ^ 2 by norm_num, Real.sqrt_sq (by norm_num)]
    have hs2 : Real.sqrt 2 < 2 := by linarith
    have : Real.sqrt 2 * (500 : ℝ) < 1000 := by nlinarith
    simpa [bigSigmaCfg] using this
  · have hβ : calc_beta bigSigmaCfg 0 [((0 : ℝ), (0 : ℝ)), ((3 : ℝ), (4 : ℝ))] =
        1 + (1 - 5 / 1000 : ℝ) ^ (0.5 : ℝ) := by
      unfold calc_beta
      simp only [List.getD_cons_zero, List.map_cons, List.map_nil, List.sum_cons,
        List.sum_nil, add_zero]
      rw [calc_distance_self, h34]
      rw [if_pos (by norm_num [bigSigmaCfg] : (0 : ℝ) < bigSigmaCfg.sigma)]
      rw [if_pos (by norm_num [bigSigmaCfg] : (5 : ℝ) < bigSigmaCfg.sigma)]
      have hσ : bigSigmaCfg.sigma = (1000 : ℝ) := by norm_num [bigSigmaCfg]
      have hα : bigSigmaCfg.fitness_alpha = (0.5 : ℝ) := by norm_num [bigSigmaCfg]
      rw [hσ, hα, zero_div, sub_zero, Real.one_rpow]
    have hpos : (0 : ℝ) < (1 - 5 / 1000 : ℝ) ^ (0.5 : ℝ) :=
      Real.rpow_pos_of_pos (by norm_num) _
    have hwrap : wrap_fitness bigSigmaCfg constOne 0
        [((0 : ℝ), (0 : ℝ)), ((3 : ℝ), (4 : ℝ))] =
          1 + (1 - 5 / 1000 : ℝ) ^ (0.5 : ℝ) := by
      unfold wrap_fitness
      simp only [List.getD_cons_zero]
      show ((constOne (NpArr.flat ((0 : ℝ), (0 : ℝ)))).map
        (fun fv => fv * calc_beta bigSigmaCfg 0 [((0 : ℝ), (0 : ℝ)), ((3 : ℝ), (4 : ℝ))] ^
          Real.sign fv)).headD 0 = 1 + (1 - 5 / 1000 : ℝ) ^ (0.5 : ℝ)
      show ([(1 : ℝ)].map
        (fun fv => fv * calc_beta bigSigmaCfg 0 [((0 : ℝ), (0 : ℝ)), ((3 : ℝ), (4 : ℝ))] ^
          Real.sign fv)).headD 0 = 1 + (1 - 5 / 1000 : ℝ) ^ (0.5 : ℝ)
      simp only [List.map_cons, List.map_nil, List.headD_cons]
      rw [Real.sign_one, Real.rpow_one, one_mul, hβ]
    rw [hwrap]
    show (1 : ℝ) + (1 - 5 / 1000 : ℝ) ^ (0.5 : ℝ) ≠ ([(1 : ℝ)].headD 0)
    simp only [List.headD_cons]
    intro he
    nlinarith

/-- C8: wrap_fitness calls the objective on a single flat point and keeps
the first element of the reply; myfun accepts such a flat pair by reshaping
it into the one-row batch, so the raw fitness used by selection and
elimination is exactly the per-row formula eggf at that point. -/
theorem myfun_single_point_call :
    (∀ p : Point, myfun (NpArr.flat p) = [eggf p]) ∧
    (∀ p : Point, myfun (NpArr.flat p) = myfun (NpArr.batch [p])) ∧
    (∀ (cfg : Config) (population : List Point) (x : ℕ),
      wrap_fitness cfg myfun x population =
        eggf (population.getD x (0, 0)) *
          calc_beta cfg x population ^ Real.sign (eggf (population.getD x (0, 0)))) :=
  ⟨fun _ => rfl, fun _ => rfl,
    fun cfg population x => wrap_fitness_eq cfg myfun eggf myfun_models x population⟩

/-- C2 counterexample: the draw [0, 0, 0] lies in the support of
random.choices(range(2), k = 3) — the sampling primitive selection uses
with the tournament size k = 3 of the source configuration — yet its three
indices are not pairwise distinct members of the population, refuting the
distinctness clause of the claim. -/
theorem selection_distinct_draw_cex :
    choices_support 2 defaultCfg.k [0, 0, 0] ∧ ¬ List.Nodup [0, 0, 0] := by
  constructor
  · constructor
    · rfl
    · intro j hj
      simp only [List.mem_cons, List.not_mem_nil, or_false] at hj
      rcases hj with rfl | rfl | rfl <;> norm_num
  · decide

/-- C2 (amended): when every draw lies in the support of
random.choices(range(len(population)), k = k) — k valid indices, sampled
with replacement, so not necessarily distinct — selection returns exactly
mu parents, and parent ii is the individual sampled by draw ii whose shared
fitness against the entire current population is minimal, ties broken by
first occurrence within the draw. -/
theorem selection_spec (cfg : Config) (objf : NpArr → List ℝ)
    (population : List Point) (draws : List (List ℕ)) (hk : 0 < cfg.k)
    (hdraws : ∀ ii, ii < cfg.mu →
      choices_support population.length cfg.k (draws.getD ii [])) :
    SelectionClaim cfg objf population draws
      (selection cfg objf population draws) := by
  constructor
  · simp [selection]
  · intro ii hii
    obtain ⟨hlen, hvalid⟩ := hdraws ii hii
    have hsel : (selection cfg objf population draws).getD ii (0, 0) =
        population.getD ((draws.getD ii []).getD
          (np_argmin ((draws.getD ii []).map
            (fun x => wrap_fitness cfg objf x population))) 0) (0, 0) := by
      unfold selection
      rw [getD_range_map _ _ _ _ hii]
    set ri := draws.getD ii [] with hri
    set g := ri.map (fun x => wrap_fitness cfg objf x population) with hg
    have hglen : g.length = ri.length := by simp [hg]
    have hrine : ri ≠ [] := by
      intro he
      rw [he] at hlen
      simp at hlen
      omega
    have hgne : g ≠ [] := by
      intro he
      rw [he] at hglen
      simp at hglen
      exact hrine (List.eq_nil_of_length_eq_zero hglen.symm)
    have hm : np_argmin g < ri.length := by
      have := np_argmin_lt_length g hgne
      omega
    refine ⟨np_argmin g, hm, hsel, ?_, ?_⟩
    · intro m' hm'
      have h1 := np_argmin_le g m' (by omega)
      rwa [getD_map_of_lt ri _ 0 0 _ hm, getD_map_of_lt ri _ 0 0 m' hm'] at h1
    · intro m' hm'
      have h1 := np_argmin_first g m' hm'
      rwa [getD_map_of_lt ri _ 0 0 _ hm, getD_map_of_lt ri _ 0 0 m' (by omega)] at h1

/-- Witness for C2 (amended) on a one-member population with a single
tournament draw. -/
theorem selection_spec_witness :
    SelectionClaim testCfg myfun [((5 : ℝ), (5 : ℝ))] [[0]]
      (selection testCfg myfun [((5 : ℝ), (5 : ℝ))] [[0]]) := by
  refine selection_spec testCfg myfun [((5 : ℝ), (5 : ℝ))] [[0]]
    (by norm_num [testCfg]) ?_
  intro ii hii
  have hii1 : ii = 0 := by
    have : testCfg.mu = 1 := rfl
    omega
  subst hii1
  exact ⟨rfl, by intro j hj; simp only [List.getD_cons_zero, List.mem_cons,
    List.not_mem_nil, or_false] at hj; subst hj; norm_num⟩

/-- The invariant of the elimination loop: with enough pool members left
and a valid incoming index j, the loop appends to the accumulator a block T
of fuel survivors taken from pairwise distinct pool slots; the first of
them is pool[j], and each later one is picked at the np.argmin of the
elim_g scores of the then-remaining pool against the survivors taken so
far. -/
lemma elim_go_spec (cfg : Config) (objf : NpArr → List ℝ) :
    ∀ (fuel : ℕ) (pool : List Point) (j : ℕ) (acc : List Point),
    fuel ≤ pool.length → (0 < fuel → j < pool.length) →
    ∃ T : List Point,
      elim_go cfg objf fuel pool j acc = acc ++ T ∧
      T.length = fuel ∧
      List.Subperm T pool ∧
      (0 < fuel → T.getD 0 (0, 0) = pool.getD j (0, 0)) ∧
      (∀ i, i + 1 < fuel → ∃ P : List Point,
        List.Perm (T.take (i + 1) ++ P) pool ∧
        T.getD (i + 1) (0, 0) =
          P.getD (np_argmin (elim_g cfg objf P (acc ++ T.take (i + 1)))) (0, 0)) := by
  intro fuel
  induction fuel with
  | zero =>
    intro pool j acc _ _
    exact ⟨[], by simp [elim_go], rfl, List.nil_subperm,
      fun h => absurd h (lt_irrefl 0), fun i hi => absurd hi (by omega)⟩
  | succ fuel ih =>
    intro pool j acc hle hj
    have hjlt : j < pool.length := hj (Nat.succ_pos fuel)
    have hpool2len : (pool.eraseIdx j).length = pool.length - 1 := by
      rw [List.length_eraseIdx]
      simp [hjlt]
    have hfuel2 : fuel ≤ (pool.eraseIdx j).length := by omega
    have hperm : List.Perm pool (pool.getD j (0, 0) :: pool.eraseIdx j) :=
      perm_getD_eraseIdx pool j hjlt
    have hj2 : 0 < fuel →
        np_argmin (elim_g cfg objf (pool.eraseIdx j) (acc ++ [pool.getD j (0, 0)])) <
          (pool.eraseIdx j).length := by
      intro hf
      have hne : elim_g cfg objf (pool.eraseIdx j) (acc ++ [pool.getD j (0, 0)]) ≠ [] := by
        intro he
        have hl := elim_g_length cfg objf (pool.eraseIdx j) (acc ++ [pool.getD j (0, 0)])
        rw [he] at hl
        simp at hl
        omega
      have hlt := np_argmin_lt_length _ hne
      rwa [elim_g_length] at hlt
    obtain ⟨T', heq', hlen', hsub', hhead', hsteps'⟩ :=
      ih (pool.eraseIdx j)
        (np_argmin (elim_g cfg objf (pool.eraseIdx j) (acc ++ [pool.getD j (0, 0)])))
        (acc ++ [pool.getD j (0, 0)]) hfuel2 hj2
    refine ⟨pool.getD j (0, 0) :: T', ?_, by simp [hlen'], ?_, fun _ => by simp, ?_⟩
    · show elim_go cfg objf (fuel + 1) pool j acc = acc ++ (pool.getD j (0, 0) :: T')
      rw [elim_go, heq']
      simp
    · have h1 : List.Subperm (pool.getD j (0, 0) :: T')
          (pool.getD j (0, 0) :: pool.eraseIdx j) :=
        (List.subperm_cons (pool.getD j (0, 0))).mpr hsub'
      exact h1.trans hperm.symm.subperm
    · intro i hi
      match i with
      | 0 =>
        refine ⟨pool.eraseIdx j, ?_, ?_⟩
        · have ht : (pool.getD j (0, 0) :: T').take 1 = [pool.getD j (0, 0)] := by simp
          rw [ht]
          simpa using hperm.symm
        · have h0fuel : 0 < fuel := by omega
          have hh := hhead' h0fuel
          have htake : acc ++ (pool.getD j (0, 0) :: T').take 1 =
              acc ++ [pool.getD j (0, 0)] := by simp
          rw [List.getD_cons_succ, hh, htake]
      | i' + 1 =>
        have hi' : i' + 1 < fuel := by omega
        obtain ⟨P, hP1, hP2⟩ := hsteps' i' hi'
        refine ⟨P, ?_, ?_⟩
        · have ht : (pool.getD j (0, 0) :: T').take (i' + 1 + 1) =
              pool.getD j (0, 0) :: T'.take (i' + 1) := by simp
          rw [ht]
          have h1 : List.Perm (pool.getD j (0, 0) :: (T'.take (i' + 1) ++ P))
              (pool.getD j (0, 0) :: pool.eraseIdx j) :=
            List.Perm.cons (pool.getD j (0, 0)) hP1
          have h2 : (pool.getD j (0, 0) :: T'.take (i' + 1)) ++ P =
              pool.getD j (0, 0) :: (T'.take (i' + 1) ++ P) := by simp
          rw [h2]
          exact h1.trans hperm.symm
        · have ht : (pool.getD j (0, 0) :: T').take (i' + 1 + 1) =
              pool.getD j (0, 0) :: T'.take (i' + 1) := by simp
          rw [List.getD_cons_succ, hP2, ht]
          have hlists : acc ++ (pool.getD j (0, 0) :: T'.take (i' + 1)) =
              (acc ++ [pool.getD j (0, 0)]) ++ T'.take (i' + 1) := by simp
          rw [hlists]

/-- C1: given a pool of size at least keep and a positive keep, elimination
returns exactly keep survivors taken from pairwise distinct pool slots;
survivors[0] is a pool member of minimum raw objective value, and each
survivors[i] for i = 1..keep-1 is the member of the then-remaining pool
minimizing shared fitness with reference population consisting of the
candidate itself followed by survivors[0..i-1], ties broken by first
occurrence. -/
theorem elimination_spec (cfg : Config) (objf : NpArr → List ℝ) (fp : Point → ℝ)
    (hobj : ObjfModels objf fp) (joined : List Point) (keep : ℕ)
    (hpos : 0 < keep) (hkeep : keep ≤ joined.length) :
    EliminationClaim cfg objf fp joined keep (elimination cfg objf joined keep) := by
  have hne : joined ≠ [] := by
    intro he
    rw [he] at hkeep
    simp at hkeep
    omega
  have hbe : objf (NpArr.batch joined) = List.map fp joined := hobj.batch_eq joined
  have hfne : List.map fp joined ≠ [] := by simpa using hne
  have hj0 : np_argmin (List.map fp joined) < joined.length := by
    have hlt := np_argmin_lt_length _ hfne
    rwa [List.length_map] at hlt
  obtain ⟨T, heq, hlen, hsub, hhead, hsteps⟩ :=
    elim_go_spec cfg objf keep joined (np_argmin (List.map fp joined)) []
      hkeep (fun _ => hj0)
  have helim : elimination cfg objf joined keep = T := by
    rw [elimination, hbe, heq, List.nil_append]
  rw [helim]
  refine ⟨hlen, hsub, ⟨?_, ?_⟩, ?_⟩
  · rw [hhead hpos]
    exact getD_mem_of_lt _ _ _ hj0
  · intro q hq
    rw [hhead hpos]
    obtain ⟨m, hm, rfl⟩ := List.mem_iff_getElem.mp hq
    have h1 := np_argmin_le (List.map fp joined) m
      (by rw [List.length_map]; exact hm)
    rw [getD_map_of_lt joined fp (0, 0) 0 _ hj0,
      getD_map_of_lt joined fp (0, 0) 0 m hm] at h1
    rwa [List.getD_eq_getElem _ _ hm] at h1
  · intro i hi
    obtain ⟨P, hP1, hP2⟩ := hsteps i hi
    rw [List.nil_append] at hP2
    have htl : (T.take (i + 1)).length = i + 1 := by
      rw [List.length_take]
      omega
    have hPlen : P.length + (i + 1) = joined.length := by
      have hpl := hP1.length_eq
      rw [List.length_append, htl] at hpl
      omega
    have hgne : elim_g cfg objf P (T.take (i + 1)) ≠ [] := by
      intro he
      have hl := elim_g_length cfg objf P (T.take (i + 1))
      rw [he] at hl
      simp at hl
      omega
    have hjj : np_argmin (elim_g cfg objf P (T.take (i + 1))) < P.length := by
      have hlt := np_argmin_lt_length _ hgne
      rwa [elim_g_length] at hlt
    refine ⟨P, hP1, np_argmin (elim_g cfg objf P (T.take (i + 1))), hjj, hP2, ?_, ?_⟩
    · intro m hm
      have h1 := np_argmin_le (elim_g cfg objf P (T.take (i + 1))) m
        (by rw [elim_g_length]; exact hm)
      rwa [elim_g_getD cfg objf P _ _ hjj, elim_g_getD cfg objf P _ m hm] at h1
    · intro m hm
      have h1 := np_argmin_first (elim_g cfg objf P (T.take (i + 1))) m hm
      rwa [elim_g_getD cfg objf P _ _ hjj, elim_g_getD cfg objf P _ m (by omega)] at h1

/-- Witness for C1 on a two-member pool kept down to one survivor. -/
theorem elimination_spec_witness :
    EliminationClaim defaultCfg myfun eggf
      [((0 : ℝ), (0 : ℝ)), ((1 : ℝ), (1 : ℝ))] 1
      (elimination defaultCfg myfun [((0 : ℝ), (0 : ℝ)), ((1 : ℝ), (1 : ℝ))] 1) :=
  elimination_spec defaultCfg myfun eggf myfun_models
    [((0 : ℝ), (0 : ℝ)), ((1 : ℝ), (1 : ℝ))] 1 (by norm_num) (by norm_num)

lemma np_clip_mem (v bound : ℝ) (hB : 0 ≤ bound) :
    0 ≤ np_clip v 0 bound ∧ np_clip v 0 bound ≤ bound := by
  unfold np_clip
  exact ⟨le_min (le_max_right v 0) hB, min_le_right _ _⟩

lemma np_clip_of_mem (v bound : ℝ) (h0 : 0 ≤ v) (hvB : v ≤ bound) :
    np_clip v 0 bound = v := by
  unfold np_clip
  rw [max_eq_left h0, min_eq_left hvB]

lemma inBoundsPt_zero (bound : ℝ) (hB : 0 ≤ bound) : inBoundsPt bound (0, 0) :=
  ⟨le_refl 0, hB, le_refl 0, hB⟩

lemma getD_inBoundsPt (bound : ℝ) (l : List Point) (n : ℕ) (hB : 0 ≤ bound)
    (hl : inBounds bound l) : inBoundsPt bound (l.getD n (0, 0)) := by
  by_cases h : n < l.length
  · exact hl _ (getD_mem_of_lt l n (0, 0) h)
  · rw [List.getD_eq_default _ _ (le_of_not_lt h)]
    exact inBoundsPt_zero bound hB

lemma lc_inBoundsPt (x y w : Point) (bound : ℝ) (hB : 0 ≤ bound) :
    inBoundsPt bound (lc x y w bound) :=
  ⟨(np_clip_mem _ bound hB).1, (np_clip_mem _ bound hB).2,
   (np_clip_mem _ bound hB).1, (np_clip_mem _ bound hB).2⟩

/-- Selection only copies rows of the population (or the zero row of the
preallocated output), so it preserves the domain box. -/
lemma selection_inBounds (cfg : Config) (objf : NpArr → List ℝ)
    (population : List Point) (draws : List (List ℕ)) (hB : 0 ≤ cfg.intMax)
    (hpop : inBounds cfg.intMax population) :
    inBounds cfg.intMax (selection cfg objf population draws) := by
  intro p hp
  obtain ⟨ii, _, rfl⟩ := List.mem_map.mp hp
  exact getD_inBoundsPt cfg.intMax population _ hB hpop

/-- Crossover clips every output coordinate into the domain box. -/
lemma crossover_inBounds (cfg : Config) (selected weights : List Point)
    (hB : 0 ≤ cfg.intMax) :
    inBounds cfg.intMax (crossover cfg selected weights) := by
  intro p hp
  obtain ⟨ii, _, rfl⟩ := List.mem_map.mp hp
  exact lc_inBoundsPt _ _ _ cfg.intMax hB

/-- Mutation clips mutated rows and passes the others through, so it
preserves the domain box. -/
lemma mutation_inBounds (cfg : Config) (offspring : List Point) (u : List ℝ)
    (noise : List Point) (alpha : ℝ) (hB : 0 ≤ cfg.intMax)
    (hoff : inBounds cfg.intMax offspring) :
    inBounds cfg.intMax (mutation cfg offspring u noise alpha) := by
  intro p hp
  obtain ⟨i, _, rfl⟩ := List.mem_map.mp hp
  by_cases h : u.getD i 1 ≤ alpha
  · rw [if_pos h]
    exact ⟨(np_clip_mem _ cfg.intMax hB).1, (np_clip_mem _ cfg.intMax hB).2,
      (np_clip_mem _ cfg.intMax hB).1, (np_clip_mem _ cfg.intMax hB).2⟩
  · rw [if_neg h]
    exact getD_inBoundsPt cfg.intMax offspring i hB hoff

lemma inBounds_append (bound : ℝ) (l1 l2 : List Point)
    (h1 : inBounds bound l1) (h2 : inBounds bound l2) :
    inBounds bound (l1 ++ l2) := fun p hp =>
  (List.mem_append.mp hp).elim (h1 p) (h2 p)

/-- The elimination loop only copies pool rows (or the zero row), so it
preserves the domain box. -/
lemma elim_go_inBounds (cfg : Config) (objf : NpArr → List ℝ) (hB : 0 ≤ cfg.intMax) :
    ∀ (fuel : ℕ) (pool : List Point) (j : ℕ) (acc : List Point),
    inBounds cfg.intMax pool → inBounds cfg.intMax acc →
    inBounds cfg.intMax (elim_go cfg objf fuel pool j acc) := by
  intro fuel
  induction fuel with
  | zero =>
    intro pool j acc _ hacc
    simpa [elim_go] using hacc
  | succ fuel ih =>
    intro pool j acc hpool hacc
    rw [elim_go]
    apply ih
    · intro p hp
      exact hpool p ((List.eraseIdx_sublist pool j).subset hp)
    · apply inBounds_append
      · exact hacc
      · intro p hp
        simp only [List.mem_singleton] at hp
        subst hp
        exact getD_inBoundsPt cfg.intMax pool j hB hpool

lemma elimination_inBounds (cfg : Config) (objf : NpArr → List ℝ)
    (joinedPopulation : List Point) (keep : ℕ) (hB : 0 ≤ cfg.intMax)
    (hpool : inBounds cfg.intMax joinedPopulation) :
    inBounds cfg.intMax (elimination cfg objf joinedPopulation keep) := by
  unfold elimination
  exact elim_go_inBounds cfg objf hB keep joinedPopulation _ [] hpool
    (fun p hp => absurd hp (List.not_mem_nil p))

/-- One full generation preserves the domain box. -/
lemma step_inBounds (cfg : Config) (objf : NpArr → List ℝ)
    (population : List Point) (r : GenRand) (hB : 0 ≤ cfg.intMax)
    (hpop : inBounds cfg.intMax population) :
    inBounds cfg.intMax (step cfg objf population r) := by
  unfold step
  apply elimination_inBounds cfg objf _ _ hB
  apply inBounds_append
  · exact mutation_inBounds cfg _ _ _ _ hB (crossover_inBounds cfg _ _ hB)
  · exact hpop

lemma scanl_step_inBounds (cfg : Config) (objf : NpArr → List ℝ) (hB : 0 ≤ cfg.intMax) :
    ∀ (rs : List GenRand) (population : List Point),
    inBounds cfg.intMax population →
    ∀ q ∈ List.scanl (step cfg objf) population rs, inBounds cfg.intMax q := by
  intro rs
  induction rs with
  | nil =>
    intro population hpop q hq
    simp only [List.scanl_nil, List.mem_singleton] at hq
    subst hq
    exact hpop
  | cons r rs ih =>
    intro population hpop q hq
    rw [List.scanl_cons] at hq
    rcases List.mem_cons.mp hq with rfl | hq2
    · exact hpop
    · exact ih (step cfg objf population r)
        (step_inBounds cfg objf population r hB hpop) q hq2

/-- C4: on every run started from uniform [0, 1) draws, every population
reported by the optimizer — the initial one and the one after each
generation, for any number of generations and any random stream — lies
inside the box [0, intMax] coordinatewise: crossover and mutation clip
their outputs and selection and elimination only copy existing rows. -/
theorem optimize_reported_inBounds (cfg : Config) (objf : NpArr → List ℝ)
    (u : List Point) (rs : List GenRand) (hB : 0 ≤ cfg.intMax)
    (hu : ∀ p ∈ u, 0 ≤ p.1 ∧ p.1 < 1 ∧ 0 ≤ p.2 ∧ p.2 < 1) :
    ∀ population ∈ optimize_reported cfg objf u rs,
      inBounds cfg.intMax population := by
  have hinit : inBounds cfg.intMax (init_population cfg u) := by
    intro p hp
    obtain ⟨q, hq, rfl⟩ := List.mem_map.mp hp
    obtain ⟨h1, h2, h3, h4⟩ := hu q hq
    refine ⟨mul_nonneg hB h1, ?_, mul_nonneg hB h3, ?_⟩
    · have : cfg.intMax * q.1 ≤ cfg.intMax * 1 :=
        mul_le_mul_of_nonneg_left (le_of_lt h2) hB
      simpa using this
    · have : cfg.intMax * q.2 ≤ cfg.intMax * 1 :=
        mul_le_mul_of_nonneg_left (le_of_lt h4) hB
      simpa using this
  exact scanl_step_inBounds cfg objf hB rs (init_population cfg u) hinit

/-- Witness for C4: the member (250, 250) of the initial population
reported by a run from the concrete draw (1/2, 1/2) lies in the domain
box. -/
theorem optimize_reported_inBounds_witness :
    inBoundsPt defaultCfg.intMax ((250 : ℝ), (250 : ℝ)) :=
  optimize_reported_inBounds defaultCfg myfun [((1 / 2 : ℝ), (1 / 2 : ℝ))] []
    (by norm_num [defaultCfg])
    (by
      intro p hp
      simp only [List.mem_singleton] at hp
      subst hp
      norm_num)
    (init_population defaultCfg [((1 / 2 : ℝ), (1 / 2 : ℝ))])
    (by simp [optimize_reported])
    ((250 : ℝ), (250 : ℝ))
    (by norm_num [init_population, defaultCfg, Prod.ext_iff])

lemma lc_weight_zero (x y : Point) (bound : ℝ) (hx : inBoundsPt bound x) :
    lc x y (0, 0) bound = x := by
  unfold lc
  have e1 : x.1 + ((0 : ℝ), (0 : ℝ)).1 * (y.1 - x.1) = x.1 := by norm_num
  have e2 : x.2 + ((0 : ℝ), (0 : ℝ)).2 * (y.2 - x.2) = x.2 := by norm_num
  rw [e1, e2, np_clip_of_mem x.1 bound hx.1 hx.2.1,
    np_clip_of_mem x.2 bound hx.2.2.1 hx.2.2.2]

lemma lc_weight_one (x y : Point) (bound : ℝ) (hy : inBoundsPt bound y) :
    lc x y (1, 1) bound = y := by
  unfold lc
  have e1 : x.1 + ((1 : ℝ), (1 : ℝ)).1 * (y.1 - x.1) = y.1 := by ring
  have e2 : x.2 + ((1 : ℝ), (1 : ℝ)).2 * (y.2 - x.2) = y.2 := by ring
  rw [e1, e2, np_clip_of_mem y.1 bound hy.1 hy.2.1,
    np_clip_of_mem y.2 bound hy.2.2.1 hy.2.2.2]

/-- C5: on a parent pool of size 2 * lambdaa, crossover produces lambdaa
offspring, child i blending the consecutive non-overlapping positional
pair selected[2 i], selected[2 i + 1] as clip(p1 + w * (p2 - p1), 0,
intMax) componentwise; the weight row (0, 0) reproduces the first parent of
the pair exactly when it lies in the domain box, and (1, 1) the second. -/
theorem crossover_spec (cfg : Config) (selected weights : List Point)
    (hlen : selected.length = 2 * cfg.lambdaa) (hB : 0 ≤ cfg.intMax) :
    (crossover cfg selected weights).length = cfg.lambdaa ∧
    ∀ i, i < cfg.lambdaa →
      (crossover cfg selected weights).getD i (0, 0) =
        lc (selected.getD (2 * i) (0, 0)) (selected.getD (2 * i + 1) (0, 0))
          (weights.getD i (0, 0)) cfg.intMax ∧
      (weights.getD i (0, 0) = (0, 0) →
        inBoundsPt cfg.intMax (selected.getD (2 * i) (0, 0)) →
        (crossover cfg selected weights).getD i (0, 0) =
          selected.getD (2 * i) (0, 0)) ∧
      (weights.getD i (0, 0) = (1, 1) →
        inBoundsPt cfg.intMax (selected.getD (2 * i + 1) (0, 0)) →
        (crossover cfg selected weights).getD i (0, 0) =
          selected.getD (2 * i + 1) (0, 0)) := by
  constructor
  · simp [crossover]
  · intro i hi
    have hform : (crossover cfg selected weights).getD i (0, 0) =
        lc (selected.getD (2 * i) (0, 0)) (selected.getD (2 * i + 1) (0, 0))
          (weights.getD i (0, 0)) cfg.intMax := by
      unfold crossover
      rw [getD_range_map _ _ _ _ hi]
    refine ⟨hform, ?_, ?_⟩
    · intro hw hx
      rw [hform, hw]
      exact lc_weight_zero _ _ cfg.intMax hx
    · intro hw hy
      rw [hform, hw]
      exact lc_weight_one _ _ cfg.intMax hy

/-- Witness for C5 on a concrete two-parent pool. -/
theorem crossover_spec_witness :
    (crossover testCfg [((1 : ℝ), (2 : ℝ)), ((3 : ℝ), (4 : ℝ))]
      [((0 : ℝ), (0 : ℝ))]).length = testCfg.lambdaa ∧
    ∀ i, i < testCfg.lambdaa →
      (crossover testCfg [((1 : ℝ), (2 : ℝ)), ((3 : ℝ), (4 : ℝ))]
        [((0 : ℝ), (0 : ℝ))]).getD i (0, 0) =
        lc ([((1 : ℝ), (2 : ℝ)), ((3 : ℝ), (4 : ℝ))].getD (2 * i) (0, 0))
          ([((1 : ℝ), (2 : ℝ)), ((3 : ℝ), (4 : ℝ))].getD (2 * i + 1) (0, 0))
          ([((0 : ℝ), (0 : ℝ))].getD i (0, 0)) testCfg.intMax ∧
      (([((0 : ℝ), (0 : ℝ))].getD i (0, 0)) = (0, 0) →
        inBoundsPt testCfg.intMax
          ([((1 : ℝ), (2 : ℝ)), ((3 : ℝ), (4 : ℝ))].getD (2 * i) (0, 0)) →
        (crossover testCfg [((1 : ℝ), (2 : ℝ)), ((3 : ℝ), (4 : ℝ))]
          [((0 : ℝ), (0 : ℝ))]).getD i (0, 0) =
          [((1 : ℝ), (2 : ℝ)), ((3 : ℝ), (4 : ℝ))].getD (2 * i) (0, 0)) ∧
      (([((0 : ℝ), (0 : ℝ))].getD i (0, 0)) = (1, 1) →
        inBoundsPt testCfg.intMax
          ([((1 : ℝ), (2 : ℝ)), ((3 : ℝ), (4 : ℝ))].getD (2 * i + 1) (0, 0)) →
        (crossover testCfg [((1 : ℝ), (2 : ℝ)), ((3 : ℝ), (4 : ℝ))]
          [((0 : ℝ), (0 : ℝ))]).getD i (0, 0) =
          [((1 : ℝ), (2 : ℝ)), ((3 : ℝ), (4 : ℝ))].getD (2 * i + 1) (0, 0)) :=
  crossover_spec testCfg [((1 : ℝ), (2 : ℝ)), ((3 : ℝ), (4 : ℝ))]
    [((0 : ℝ), (0 : ℝ))] (by norm_num [testCfg]) (by norm_num [testCfg])

/-- C6 (amended): a row of the offspring mutates exactly when its uniform
draw satisfies u[i] <= alpha, the whole 2-vector together; with alpha = 1
every row whose draw lies in [0, 1) is perturbed and clipped; with
alpha = 0 every row whose draw is strictly positive passes through
unchanged, and if all draws are strictly positive the output is
bit-for-bit the input.  (A draw of exactly 0 still mutates under
alpha = 0, since the test is a non-strict inequality; see the
counterexample.) -/
theorem mutation_spec (cfg : Config) (offspring : List Point) (u : List ℝ)
    (noise : List Point) (alpha : ℝ) :
    (mutation cfg offspring u noise alpha).length = offspring.length ∧
    (∀ i, i < offspring.length →
      (u.getD i 1 ≤ alpha →
        (mutation cfg offspring u noise alpha).getD i (0, 0) =
          (np_clip ((offspring.getD i (0, 0)).1 + 10 * (noise.getD i (0, 0)).1)
            0 cfg.intMax,
           np_clip ((offspring.getD i (0, 0)).2 + 10 * (noise.getD i (0, 0)).2)
            0 cfg.intMax)) ∧
      (alpha < u.getD i 1 →
        (mutation cfg offspring u noise alpha).getD i (0, 0) =
          offspring.getD i (0, 0))) ∧
    (alpha = 0 → (∀ i, i < offspring.length → 0 < u.getD i 1) →
      mutation cfg offspring u noise alpha = offspring) ∧
    (alpha = 1 → (∀ i, i < offspring.length → u.getD i 1 < 1) →
      ∀ i, i < offspring.length →
        (mutation cfg offspring u noise alpha).getD i (0, 0) =
          (np_clip ((offspring.getD i (0, 0)).1 + 10 * (noise.getD i (0, 0)).1)
            0 cfg.intMax,
           np_clip ((offspring.getD i (0, 0)).2 + 10 * (noise.getD i (0, 0)).2)
            0 cfg.intMax)) := by
  have hform : ∀ i, i < offspring.length →
      (mutation cfg offspring u noise alpha).getD i (0, 0) =
        if u.getD i 1 ≤ alpha then
          (np_clip ((offspring.getD i (0, 0)).1 + 10 * (noise.getD i (0, 0)).1)
            0 cfg.intMax,
           np_clip ((offspring.getD i (0, 0)).2 + 10 * (noise.getD i (0, 0)).2)
            0 cfg.intMax)
        else offspring.getD i (0, 0) := by
    intro i hi
    unfold mutation
    rw [getD_range_map _ _ _ _ hi]
  refine ⟨by simp [mutation], ?_, ?_, ?_⟩
  · intro i hi
    constructor
    · intro hle
      rw [hform i hi, if_pos hle]
    · intro hgt
      rw [hform i hi, if_neg (not_le.mpr hgt)]
  · intro ha hu
    subst ha
    apply List.ext_getElem (by simp [mutation])
    intro i h1 h2
    have hlt : i < offspring.length := h2
    have hni : ¬ u.getD i 1 ≤ 0 := not_le.mpr (hu i hlt)
    have := hform i hlt
    rw [if_neg hni] at this
    rw [List.getD_eq_getElem _ _ h1, List.getD_eq_getElem _ _ h2] at this
    exact this
  · intro ha hu i hi
    subst ha
    rw [hform i hi, if_pos (le_of_lt (hu i hi))]

/-- Witness for C6 (amended): with mutation probability 0 and a strictly
positive draw the sole offspring row passes through unchanged. -/
theorem mutation_spec_witness :
    mutation testCfg [((1 : ℝ), (2 : ℝ))] [(1 / 2 : ℝ)] [((0 : ℝ), (0 : ℝ))] 0 =
      [((1 : ℝ), (2 : ℝ))] :=
  (mutation_spec testCfg [((1 : ℝ), (2 : ℝ))] [(1 / 2 : ℝ)]
    [((0 : ℝ), (0 : ℝ))] 0).2.2.1 rfl
    (by
      intro i hi
      simp only [List.length_cons, List.length_nil] at hi
      have hi0 : i = 0 := by omega
      subst hi0
      norm_num)

/-- C6 counterexample: with mutation probability alpha = 0 and the uniform
draw exactly 0 — a point of the support [0, 1) of np.random.rand — the row
still mutates, because the source tests rand <= alpha; with a nonzero
Gaussian draw the output differs bit-for-bit from the input. -/
theorem mutation_zero_draw_cex :
    mutation defaultCfg [((1 : ℝ), (1 : ℝ))] [(0 : ℝ)] [((1 : ℝ), (0 : ℝ))] 0 ≠
      [((1 : ℝ), (1 : ℝ))] := by
  have hval : mutation defaultCfg [((1 : ℝ), (1 : ℝ))] [(0 : ℝ)] [((1 : ℝ), (0 : ℝ))] 0 =
      [((11 : ℝ), (1 : ℝ))] := by
    unfold mutation
    simp only [List.length_cons, List.length_nil, List.range_succ, List.range_zero,
      List.nil_append, List.map_cons, List.map_nil, List.getD_cons_zero]
    rw [if_pos (le_refl (0 : ℝ))]
    have h1 : np_clip ((1 : ℝ) + 10 * 1) 0 defaultCfg.intMax = 11 := by
      rw [show (1 : ℝ) + 10 * 1 = 11 by norm_num]
      exact np_clip_of_mem 11 defaultCfg.intMax (by norm_num) (by norm_num [defaultCfg])
    have h2 : np_clip ((1 : ℝ) + 10 * 0) 0 defaultCfg.intMax = 1 := by
      rw [show (1 : ℝ) + 10 * 0 = 1 by norm_num]
      exact np_clip_of_mem 1 defaultCfg.intMax (by norm_num) (by norm_num [defaultCfg])
    rw [h1, h2]
  rw [hval]
  intro he
  have h11 := List.head_eq_of_cons_eq he
  rw [Prod.ext_iff] at h11
  norm_num at h11

/-- C10: every coordinate of the initial population lies in the half-open
interval [0, intMax): the draws of np.random.rand lie in [0, 1) and are
scaled by the positive bound, so no initial coordinate equals the bound. -/
theorem init_population_spec (cfg : Config) (u : List Point) (hB : 0 < cfg.intMax)
    (hu : ∀ p ∈ u, 0 ≤ p.1 ∧ p.1 < 1 ∧ 0 ≤ p.2 ∧ p.2 < 1) :
    ∀ q ∈ init_population cfg u,
      0 ≤ q.1 ∧ q.1 < cfg.intMax ∧ 0 ≤ q.2 ∧ q.2 < cfg.intMax := by
  intro q hq
  obtain ⟨p, hp, rfl⟩ := List.mem_map.mp hq
  obtain ⟨h1, h2, h3, h4⟩ := hu p hp
  refine ⟨mul_nonneg (le_of_lt hB) h1, ?_, mul_nonneg (le_of_lt hB) h3, ?_⟩
  · have h5 : cfg.intMax * p.1 < cfg.intMax * 1 := by
      exact mul_lt_mul_of_pos_left h2 hB
    simpa using h5
  · have h5 : cfg.intMax * p.2 < cfg.intMax * 1 := by
      exact mul_lt_mul_of_pos_left h4 hB
    simpa using h5

/-- Witness for C10: the initial individual produced from the concrete
uniform draw (1/2, 0) has both coordinates in [0, intMax). -/
theorem init_population_spec_witness :
    0 ≤ ((250 : ℝ), (0 : ℝ)).1 ∧ ((250 : ℝ), (0 : ℝ)).1 < defaultCfg.intMax ∧
    0 ≤ ((250 : ℝ), (0 : ℝ)).2 ∧ ((250 : ℝ), (0 : ℝ)).2 < defaultCfg.intMax :=
  init_population_spec defaultCfg [((1 / 2 : ℝ), (0 : ℝ))] (by norm_num [defaultCfg])
    (by
      intro p hp
      simp only [List.mem_singleton] at hp
      subst hp
      norm_num)
    ((250 : ℝ), (0 : ℝ))
    (by norm_num [init_population, defaultCfg, Prod.ext_iff])

end EggholderEA
